import Mathlib

/-
  Verification of the NFC tag security layer of the NFCsecurereader app.

  Shallow embedding conventions:
  - JavaScript byte arrays are List Nat (each entry a byte value; where the
    source pushes an out-of-range number into a byte array, the model keeps
    the raw number, mirroring the JS number array before native conversion).
  - JavaScript strings are either List Nat of Unicode code points (NDEF codec
    section, where byte/string conversions matter) or List Char (signature
    section, where only splitting/joining and character tests matter).
  - Date.now() and new Date().getHours() are explicit parameters (now, hourOf).
  - The SHA-256 digest from expo-crypto is an abstract parameter
    h : List Char -> List Char of the definitions that use it.
-/

namespace NFCSec

/-! ## Generic list helpers -/

/-- Model of JavaScript Array.prototype.slice with a negative index:
    slice(-n) keeps the last n elements (the whole list when shorter). -/
def lastN (n : Nat) (l : List α) : List α := l.drop (l.length - n)

theorem lastN_length (n : Nat) (l : List α) :
    (lastN n l).length = l.length - (l.length - n) := by
  simp [lastN]

theorem lastN_length_le (n : Nat) (l : List α) : (lastN n l).length ≤ n := by
  rw [lastN_length]; omega

theorem lastN_of_length_le (n : Nat) (l : List α) (h : l.length ≤ n) :
    lastN n l = l := by
  simp [lastN, Nat.sub_eq_zero_of_le h]

theorem lastN_append_singleton (n : Nat) (l : List α) (x : α) :
    lastN (n + 1) (l ++ [x]) = lastN n l ++ [x] := by
  simp only [lastN, List.length_append, List.length_singleton]
  have h : l.length + 1 - (n + 1) = l.length - n := by omega
  rw [h, List.drop_append_of_le_length (by omega : l.length - n ≤ l.length)]

theorem lastN_lastN_append (n : Nat) (l : List α) (x : α) (hn : 1 ≤ n) :
    lastN n (lastN n l ++ [x]) = lastN n (l ++ [x]) := by
  rcases Nat.lt_or_ge l.length n with hlt | hge
  · rw [lastN_of_length_le n l (Nat.le_of_lt hlt)]
  · obtain ⟨m, rfl⟩ : ∃ m, n = m + 1 := ⟨n - 1, by omega⟩
    rw [lastN_append_singleton, lastN_append_singleton]
    congr 1
    show lastN m (lastN (m + 1) l) = lastN m l
    simp only [lastN, List.length_drop, List.drop_drop]
    congr 1
    omega

/-- Element with default at index length - 1, i.e. the last element. -/
def lastD (l : List Int) : Int := l.getD (l.length - 1) 0

theorem lastD_append_singleton (l : List Int) (x : Int) (h : l ≠ []) :
    (l ++ [x]).getD ((l ++ [x]).length - 2) 0 = lastD l := by
  have hlen : 0 < l.length := List.length_pos.mpr h
  have hidx : (l ++ [x]).length - 2 = l.length - 1 := by
    simp only [List.length_append, List.length_singleton]; omega
  rw [hidx, lastD]
  exact List.getD_append _ _ _ _ (by omega)

theorem lastD_drop (k : Nat) (l : List Int) (h : k < l.length) :
    lastD (l.drop k) = lastD l := by
  have hlen : (l.drop k).length = l.length - k := List.length_drop k l
  have h1 : (l.drop k).length - 1 < (l.drop k).length := by omega
  have h2 : l.length - 1 < l.length := by omega
  rw [lastD, lastD, List.getD_eq_getElem _ _ h1, List.getD_eq_getElem _ _ h2]
  rw [List.getElem_drop]
  congr 1
  omega

theorem lastD_lastN (n : Nat) (l : List Int) (h : l ≠ []) (hn : 1 ≤ n) :
    lastD (lastN n l) = lastD l := by
  have hlen : 0 < l.length := List.length_pos.mpr h
  apply lastD_drop
  omega

/-- Consecutive differences of a list of timestamps. -/
def diffs : List Int → List Int
  | a :: b :: t => (b - a) :: diffs (b :: t)
  | _ => []

theorem diffs_length : ∀ l : List Int, (diffs l).length = l.length - 1
  | [] => rfl
  | [_] => rfl
  | a :: b :: t => by
      simp only [diffs, List.length_cons]
      rw [diffs_length (b :: t)]
      simp

theorem lastD_cons_cons (a b : Int) (t : List Int) :
    lastD (a :: b :: t) = lastD (b :: t) := by
  simp only [lastD, List.length_cons]
  rfl

theorem diffs_append_singleton :
    ∀ (l : List Int) (x : Int), l ≠ [] →
      diffs (l ++ [x]) = diffs l ++ [x - lastD l]
  | [], _, h => absurd rfl h
  | [a], x, _ => by simp [diffs, lastD]
  | a :: b :: t, x, _ => by
      have ih := diffs_append_singleton (b :: t) x (by simp)
      simp only [List.cons_append, diffs, List.append_eq] at ih ⊢
      rw [ih, lastD_cons_cons]

/-- Option-valued first index satisfying a predicate; models
    Array.prototype.findIndex with -1 rendered as none. -/
def findIdxO (p : α → Bool) : List α → Option Nat
  | [] => none
  | x :: xs => if p x then some 0 else (findIdxO p xs).map (· + 1)

theorem findIdxO_append_singleton (p : α → Bool) (xs : List α) (y : α)
    (hxs : ∀ x ∈ xs, p x = false) (hy : p y = true) :
    findIdxO p (xs ++ [y]) = some xs.length := by
  induction xs with
  | nil => simp [findIdxO, hy]
  | cons a l ih =>
      have ha : p a = false := hxs a (by simp)
      have hl : ∀ x ∈ l, p x = false := fun x hx => hxs x (by simp [hx])
      simp [findIdxO, ha, ih hl]

theorem getD_append_singleton (xs : List α) (y d : α) :
    (xs ++ [y]).getD xs.length d = y := by
  induction xs with
  | nil => rfl
  | cons a l ih => simp only [List.cons_append, List.length_cons, List.getD_cons_succ]; exact ih

theorem take_append_singleton (xs : List α) (y : α) :
    (xs ++ [y]).take xs.length = xs :=
  List.take_left xs [y]

theorem set_ne_of_ne (l : List α) (i : Nat) (c d : α) (h : i < l.length)
    (hc : c ≠ l.getD i d) : l.set i c ≠ l := by
  intro heq
  apply hc
  have hset : i < (l.set i c).length := by simpa using h
  have h1 : (l.set i c).getD i d = c := by
    rw [List.getD_eq_getElem _ _ hset]
    exact List.getElem_set_self hset
  rw [heq, List.getD_eq_getElem _ _ h] at h1
  rw [List.getD_eq_getElem _ _ h]
  exact h1.symm

/-! ## NDEF codec

Source: src/lib/nfc/core-manager.ts. The encoder is writeNFCTag (second draft,
lines 558-633); the per-record payload decoders are parseNdefPayload,
parseTextRecord and parseUriRecord (first draft, lines 175-276). Byte arrays
are List Nat; JavaScript strings on this wire level are List Nat of Unicode
code points. -/

/-- UTF-8 encoding of one Unicode code point, as performed per character by
    the TextEncoder used in writeNFCTag. -/
def utf8EncodeChar (c : Nat) : List Nat :=
  if c < 0x80 then [c]
  else if c < 0x800 then [0xC0 + c / 0x40, 0x80 + c % 0x40]
  else if c < 0x10000 then
    [0xE0 + c / 0x1000, 0x80 + (c / 0x40) % 0x40, 0x80 + c % 0x40]
  else
    [0xF0 + c / 0x40000, 0x80 + (c / 0x1000) % 0x40, 0x80 + (c / 0x40) % 0x40,
     0x80 + c % 0x40]

/-- Model of new TextEncoder().encode on a string given as code points. -/
def utf8Encode (s : List Nat) : List Nat := (s.map utf8EncodeChar).flatten

/-- Model of bytesToString, i.e. String.fromCharCode(...bytes): every byte
    value (0..255) becomes the code point of the corresponding character, so
    on code-point lists the function is the identity embedding. -/
def bytesToString (bytes : List Nat) : List Nat := bytes

/-- Decoded payload variants produced by parseNdefPayload. -/
inductive ParsedPayload where
  | text (text language : List Nat)
  | uri (uri : List Nat)
  | raw (data : List Nat)
  | error (msg : String)
deriving DecidableEq, Repr

/-- Model of parseTextRecord (core-manager.ts lines 225-247); the source
    throws on short payloads, modelled by Except.error. -/
def parseTextRecord (bytes : List Nat) : Except String ParsedPayload :=
  if bytes.length < 3 then .error "Invalid text record payload"
  else
    let statusByte := bytes.getD 0 0
    let languageLength := statusByte &&& 0x3f
    if bytes.length < 1 + languageLength then .error "Invalid text record format"
    else
      .ok (.text (bytesToString (bytes.drop (1 + languageLength)))
                 (bytesToString ((bytes.drop 1).take languageLength)))

/-- URI prefix lookup table of parseUriRecord (35 entries). -/
def uriPfxTable : List (List Nat) :=
  ["", "http://www.", "https://www.", "http://", "https://",
   "tel:", "mailto:", "ftp://anonymous:anonymous@", "ftp://ftp.",
   "ftps://", "sftp://", "smb://", "nfs://", "ftp://", "dav://",
   "news:", "telnet://", "imap:", "rtsp://", "urn:", "pop:",
   "sip:", "sips:", "tftp:", "btspp://", "btl2cap://", "btgoep://",
   "tcpobex://", "irdaobex://", "file://", "urn:epc:id:", "urn:epc:tag:",
   "urn:epc:pat:", "urn:epc:raw:", "urn:epc:", "urn:nfc:"].map
    (fun s => s.data.map Char.toNat)

/-- Model of parseUriRecord (core-manager.ts lines 249-276). -/
def parseUriRecord (bytes : List Nat) : Except String ParsedPayload :=
  if bytes.length = 0 then .error "Empty URI record"
  else
    let pfxByte := bytes.getD 0 0
    let uriData := bytes.drop 1
    .ok (.uri (uriPfxTable.getD pfxByte [] ++ bytesToString uriData))

/-- Model of hexadecimal rendering used by bytesToHex (two uppercase hex
    characters per byte, given as code points). -/
def byteToHexChars (b : Nat) : List Nat :=
  let hexDigit := fun n => if n < 10 then 48 + n else 55 + n
  [hexDigit (b / 16), hexDigit (b % 16)]

def bytesToHex (bytes : List Nat) : List Nat := (bytes.map byteToHexChars).flatten

/-- Model of parseNdefPayload (core-manager.ts lines 198-223): dispatch on
    tnf and type, catching per-record parse exceptions into an error payload. -/
def parseNdefPayload (tnf : Nat) (ty : List Nat) (payload : List Nat) : ParsedPayload :=
  if payload.length = 0 then .raw []
  else if tnf = 1 ∧ bytesToString ty = [84] then
    match parseTextRecord payload with
    | .ok p => p
    | .error e => .error e
  else if tnf = 1 ∧ bytesToString ty = [85] then
    match parseUriRecord payload with
    | .ok p => p
    | .error e => .error e
  else .raw (bytesToHex payload)

/-- One decoded NDEF record (id field omitted: it is a position label
    record_i with no control flow). -/
structure NdefRec where
  tnf : Nat
  type : List Nat
  payload : ParsedPayload
deriving DecidableEq, Repr

def decodedRecord (flags : Nat) (ty payload : List Nat) : NdefRec :=
  ⟨flags &&& 7, ty, parseNdefPayload (flags &&& 7) ty payload⟩

def overrunRecord : NdefRec := ⟨0, [], .error "record length overruns buffer"⟩

def truncatedRecord : NdefRec := ⟨0, [], .error "truncated record header"⟩

/-- Worker for decodeMessage; fuel is an upper bound on the byte count,
    decremented once per record, so the recursion is structural. -/
def decodeRecordsAux : Nat → List Nat → List NdefRec
  | 0, _ => []
  | _ + 1, [] => []
  | fuel + 1, flags :: typeLen :: payloadLen :: rest =>
      if typeLen + payloadLen ≤ rest.length then
        decodedRecord flags (rest.take typeLen) ((rest.drop typeLen).take payloadLen)
          :: decodeRecordsAux fuel (rest.drop (typeLen + payloadLen))
      else [overrunRecord]
  | _ + 1, _ => [truncatedRecord]

/-- Modelled from the spec: the message-level NDEF framing is performed by
    the native react-native-nfc-manager library and is absent from src; spec
    sections 4.1 and 6 fix it as short-record form only, with a header byte,
    a 1-byte type length, a 1-byte payload length, the type bytes and the
    payload bytes, and a record whose declared length overruns the remaining
    buffer decodes to an error record instead of aborting the message.
    Per-record payload decoding is parseNdefPayload from src. -/
def decodeMessage (bytes : List Nat) : List NdefRec :=
  decodeRecordsAux bytes.length bytes

/-- Wire layout of one record as emitted by writeNFCTag: header flags, type
    length, payload length, type bytes, payload bytes. -/
def frameRecord (flags : Nat) (ty payload : List Nat) : List Nat :=
  flags :: ty.length :: payload.length :: (ty ++ payload)

/-- Text record payload built by writeNFCTag:
    [language length status byte][language code bytes][UTF-8 text bytes]. -/
def textRecordPayload (text : List Nat) : List Nat :=
  let langCodeBytes := utf8Encode [101, 110]
  langCodeBytes.length :: (langCodeBytes ++ utf8Encode text)

/-- Header flags of writeNFCTag: TNF 1, MB on the first record, ME on the
    last record, SR when the payload length is below 256. -/
def recordFlags (isFirst isLast : Bool) (payloadLen : Nat) : Nat :=
  let f := 0x01
  let f := if isFirst then f ||| 0x80 else f
  let f := if isLast then f ||| 0x40 else f
  if payloadLen < 256 then f ||| 0x10 else f

def encodeTextRecord (isFirst isLast : Bool) (text : List Nat) : List Nat :=
  frameRecord (recordFlags isFirst isLast (textRecordPayload text).length)
    [0x54] (textRecordPayload text)

/-- Model of the NDEF message builder of writeNFCTag (core-manager.ts lines
    579-617): one text record per input string, concatenated. Entries are the
    raw JavaScript numbers pushed into the array; no capacity check exists in
    the source, so a payload length above 255 is pushed as-is. -/
def writeNFCTagBytes (textData : List (List Nat)) : List Nat :=
  (textData.enum.map (fun p =>
    encodeTextRecord (decide (p.1 = 0)) (decide (p.1 = textData.length - 1)) p.2)).flatten

/-! ## NDEF codec lemmas -/

theorem decodeRecordsAux_nil : ∀ fuel, decodeRecordsAux fuel [] = []
  | 0 => rfl
  | _ + 1 => rfl

theorem decodeRecordsAux_congr : ∀ (f₁ f₂ : Nat) (bytes : List Nat),
    bytes.length ≤ f₁ → bytes.length ≤ f₂ →
    decodeRecordsAux f₁ bytes = decodeRecordsAux f₂ bytes := by
  intro f₁
  induction f₁ with
  | zero =>
      intro f₂ bytes h₁ _
      have hb : bytes = [] := List.length_eq_zero.mp (Nat.le_zero.mp h₁)
      subst hb
      rw [decodeRecordsAux_nil, decodeRecordsAux_nil]
  | succ n ih =>
      intro f₂ bytes h₁ h₂
      rcases bytes with _ | ⟨b1, _ | ⟨b2, _ | ⟨b3, rest⟩⟩⟩
      · rw [decodeRecordsAux_nil, decodeRecordsAux_nil]
      · obtain ⟨m, rfl⟩ : ∃ m, f₂ = m + 1 := ⟨f₂ - 1, by simp at h₂; omega⟩
        rfl
      · obtain ⟨m, rfl⟩ : ∃ m, f₂ = m + 1 := ⟨f₂ - 1, by simp at h₂; omega⟩
        rfl
      · obtain ⟨m, rfl⟩ : ∃ m, f₂ = m + 1 := ⟨f₂ - 1, by simp at h₂; omega⟩
        simp only [List.length_cons] at h₁ h₂
        simp only [decodeRecordsAux]
        by_cases hc : b2 + b3 ≤ rest.length
        · rw [if_pos hc, if_pos hc]
          congr 1
          apply ih
          · rw [List.length_drop]; omega
          · rw [List.length_drop]; omega
        · rw [if_neg hc, if_neg hc]

theorem decodeMessage_nil : decodeMessage [] = [] := rfl

theorem decodeMessage_frame_cons (flags : Nat) (ty pay rest : List Nat) :
    decodeMessage (frameRecord flags ty pay ++ rest) =
      decodedRecord flags ty pay :: decodeMessage rest := by
  have hshape : frameRecord flags ty pay ++ rest
      = flags :: ty.length :: pay.length :: (ty ++ (pay ++ rest)) := by
    simp [frameRecord]
  rw [decodeMessage, hshape]
  have hlen : (flags :: ty.length :: pay.length :: (ty ++ (pay ++ rest))).length
      = (ty ++ (pay ++ rest)).length + 2 + 1 := by simp
  rw [hlen]
  simp only [decodeRecordsAux]
  have hcond : ty.length + pay.length ≤ (ty ++ (pay ++ rest)).length := by
    simp only [List.length_append]; omega
  rw [if_pos hcond]
  have htake : (ty ++ (pay ++ rest)).take ty.length = ty := List.take_left ty _
  have hdrop : (ty ++ (pay ++ rest)).drop ty.length = pay ++ rest := List.drop_left ty _
  have htake2 : (pay ++ rest).take pay.length = pay := List.take_left pay rest
  have hdrop2 : (ty ++ (pay ++ rest)).drop (ty.length + pay.length) = rest := by
    rw [← List.append_assoc, ← List.length_append]
    exact List.drop_left (ty ++ pay) rest
  rw [htake, hdrop, htake2, hdrop2]
  congr 1
  apply decodeRecordsAux_congr
  · simp only [List.length_append]; omega
  · exact Nat.le_refl _

theorem decodeMessage_overrun (flags typeLen payloadLen : Nat) (rest : List Nat)
    (h : rest.length < typeLen + payloadLen) :
    decodeMessage (flags :: typeLen :: payloadLen :: rest) = [overrunRecord] := by
  rw [decodeMessage]
  simp only [List.length_cons]
  simp only [decodeRecordsAux]
  rw [if_neg (by omega)]

theorem decodeMessage_frames (l : List (Nat × List Nat × List Nat)) (rest : List Nat) :
    decodeMessage ((l.map (fun c => frameRecord c.1 c.2.1 c.2.2)).flatten ++ rest)
      = l.map (fun c => decodedRecord c.1 c.2.1 c.2.2) ++ decodeMessage rest := by
  induction l with
  | nil => simp
  | cons c t ih =>
      simp only [List.map_cons, List.flatten_cons, List.append_assoc]
      rw [decodeMessage_frame_cons, ih, List.cons_append]

theorem recordFlags_and_7 (a b : Bool) (n : Nat) : recordFlags a b n &&& 7 = 1 := by
  cases a <;> cases b <;>
    · by_cases hn : n < 256 <;> simp only [recordFlags, hn, if_true, if_false,
        reduceIte] <;> decide

theorem utf8Encode_ascii (t : List Nat) (h : ∀ c ∈ t, c < 128) :
    utf8Encode t = t := by
  induction t with
  | nil => rfl
  | cons a tail ih =>
      have ha : a < 128 := h a (by simp)
      have htail : utf8Encode tail = tail := ih (fun c hc => h c (by simp [hc]))
      show utf8EncodeChar a ++ utf8Encode tail = a :: tail
      rw [utf8EncodeChar, if_pos ha, htail]
      rfl

theorem parseNdefPayload_textPayload (t : List Nat) :
    parseNdefPayload 1 [84] (textRecordPayload t) = .text (utf8Encode t) [101, 110] := by
  have hshape : textRecordPayload t = 2 :: 101 :: 110 :: utf8Encode t := rfl
  rw [hshape, parseNdefPayload]
  rw [if_neg (by simp)]
  rw [if_pos (by constructor <;> rfl)]
  rw [parseTextRecord]
  rw [if_neg (by simp only [List.length_cons]; omega)]
  have hstatus : (2 :: 101 :: 110 :: utf8Encode t).getD 0 0 &&& 0x3f = 2 := by
    rw [List.getD_cons_zero]; decide
  simp only [hstatus]
  rw [if_neg (by simp only [List.length_cons]; omega)]
  rfl

theorem enumFrom_map_snd (F : α → β) : ∀ (n : Nat) (l : List α),
    (List.enumFrom n l).map (fun p => F p.2) = l.map F
  | _, [] => rfl
  | n, a :: t => by
      simp only [List.enumFrom, List.map_cons]
      rw [enumFrom_map_snd F (n + 1) t]

theorem decode_encode_list (l : List (Bool × Bool × List Nat)) :
    decodeMessage ((l.map (fun p => encodeTextRecord p.1 p.2.1 p.2.2)).flatten)
      = l.map (fun p =>
          (⟨1, [84], parseNdefPayload 1 [84] (textRecordPayload p.2.2)⟩ : NdefRec)) := by
  induction l with
  | nil => rfl
  | cons c t ih =>
      simp only [List.map_cons, List.flatten_cons]
      rw [show encodeTextRecord c.1 c.2.1 c.2.2
            = frameRecord (recordFlags c.1 c.2.1 (textRecordPayload c.2.2).length)
                [0x54] (textRecordPayload c.2.2) from rfl]
      rw [decodeMessage_frame_cons, ih]
      congr 1
      rw [decodedRecord, recordFlags_and_7]

/-! ## Claim theorems for the NDEF codec (C1, C8, C9) -/

set_option maxRecDepth 10000 in
/-- C1 counterexample: the claim fails as stated. The single text record with
    the one non-ASCII code point 233 has an encoded payload of 5 bytes, well
    under 255, yet decoding the encoded message yields the text [195, 169]
    (the two UTF-8 bytes read back as individual characters), not the
    original [233]. -/
theorem roundtrip_fails_on_nonascii :
    (textRecordPayload [233]).length ≤ 255
    ∧ decodeMessage (writeNFCTagBytes [[233]])
        = [⟨1, [84], .text [195, 169] [101, 110]⟩]
    ∧ ([195, 169] : List Nat) ≠ [233] :=
  ⟨by decide, by decide, by decide⟩

/-- C1 amended: for every sequence of text records whose text is ASCII (all
    code points below 128) and whose encoded payloads are each at most 255
    bytes, decoding the bytes produced by the writeNFCTag record builder
    yields one record per input, each a text record with the original text
    and the language code en. -/
theorem roundtrip_ascii_records (texts : List (List Nat))
    (hascii : ∀ t ∈ texts, ∀ c ∈ t, c < 128)
    (hcap : ∀ t ∈ texts, (textRecordPayload t).length ≤ 255) :
    decodeMessage (writeNFCTagBytes texts) =
      texts.map (fun t => ⟨1, [84], .text t [101, 110]⟩) := by
  have hw : writeNFCTagBytes texts =
      ((texts.enum.map (fun p =>
          ((decide (p.1 = 0) : Bool), (decide (p.1 = texts.length - 1) : Bool), p.2))).map
        (fun q => encodeTextRecord q.1 q.2.1 q.2.2)).flatten := by
    rw [writeNFCTagBytes, List.map_map]
    rfl
  rw [hw, decode_encode_list, List.map_map]
  have henum := enumFrom_map_snd
    (fun t => (⟨1, [84], parseNdefPayload 1 [84] (textRecordPayload t)⟩ : NdefRec)) 0 texts
  rw [show List.enum texts = List.enumFrom 0 texts from rfl]
  rw [show ((fun p : Bool × Bool × List Nat =>
        (⟨1, [84], parseNdefPayload 1 [84] (textRecordPayload p.2.2)⟩ : NdefRec)) ∘
      (fun p : Nat × List Nat =>
        ((decide (p.1 = 0) : Bool), (decide (p.1 = texts.length - 1) : Bool), p.2)))
      = (fun p : Nat × List Nat =>
          (⟨1, [84], parseNdefPayload 1 [84] (textRecordPayload p.2)⟩ : NdefRec)) from rfl]
  rw [henum]
  apply List.map_congr_left
  intro t ht
  rw [parseNdefPayload_textPayload, utf8Encode_ascii t (hascii t ht)]

/-- C1 amended witness: the two ASCII records Hi and the single character !
    round-trip through encode and decode. -/
theorem roundtrip_ascii_records_witness :
    decodeMessage (writeNFCTagBytes [[72, 105], [33]])
      = [[72, 105], [33]].map (fun t => (⟨1, [84], .text t [101, 110]⟩ : NdefRec)) :=
  roundtrip_ascii_records [[72, 105], [33]] (by decide) (by decide)

set_option maxRecDepth 100000 in
/-- C8: the encoder performs no capacity check. For a 253-character ASCII
    text the encoded payload is 256 bytes; writeNFCTag emits the record
    anyway: the header byte is 193 (SR flag cleared), the single
    payload-length entry holds the raw number 256, which does not fit a byte,
    and the full record is emitted with no error signalled. -/
theorem writeNFCTag_oversize_no_capacity_error :
    (textRecordPayload (List.replicate 253 97)).length = 256
    ∧ (writeNFCTagBytes [List.replicate 253 97]).getD 2 0 = 256
    ∧ 255 < (writeNFCTagBytes [List.replicate 253 97]).getD 2 0
    ∧ (writeNFCTagBytes [List.replicate 253 97]).getD 0 0 = 193
    ∧ (writeNFCTagBytes [List.replicate 253 97]).length = 260 :=
  ⟨by decide, by decide, by decide, by decide, by decide⟩

/-- C9: any message made of well-framed records followed by a record whose
    declared payload length overruns the remaining buffer decodes to the
    individual decode of every well-formed record followed by one
    error-tagged record, and the decoder is a total function (no exception
    aborts the message). -/
theorem decode_flags_overrun_record (chunks : List (Nat × List Nat × List Nat))
    (flags2 typeLen payloadLen : Nat) (rest : List Nat)
    (hover : rest.length < typeLen + payloadLen) :
    decodeMessage ((chunks.map (fun c => frameRecord c.1 c.2.1 c.2.2)).flatten
        ++ (flags2 :: typeLen :: payloadLen :: rest))
      = chunks.map (fun c => decodedRecord c.1 c.2.1 c.2.2) ++ [overrunRecord] := by
  rw [decodeMessage_frames, decodeMessage_overrun _ _ _ _ hover]

set_option maxRecDepth 10000 in
/-- C9 witness: a two-record message whose first record is the text Hi and
    whose second record declares payload length 10 with only 4 bytes left
    decodes to the text record followed by the error record. -/
theorem decode_flags_overrun_record_witness :
    decodeMessage (([((209 : Nat), [84], textRecordPayload [72, 105])].map
        (fun c => frameRecord c.1 c.2.1 c.2.2)).flatten
        ++ (81 :: 1 :: 10 :: [84, 2, 101, 110]))
      = [((209 : Nat), [84], textRecordPayload [72, 105])].map
          (fun c => decodedRecord c.1 c.2.1 c.2.2) ++ [overrunRecord] :=
  decode_flags_overrun_record [(209, [84], textRecordPayload [72, 105])] 81 1 10
    [84, 2, 101, 110] (by decide)

/-! ## Signature service (simple-secure-manager.ts)

Payload strings are List Char. The SHA-256 digest of expo-crypto is an
abstract function parameter h. -/

/-- Model of String.prototype.split with separator the pipe character. -/
def splitOnPipe : List Char → List (List Char)
  | [] => [[]]
  | c :: cs =>
      if c = '|' then [] :: splitOnPipe cs
      else
        match splitOnPipe cs with
        | [] => [[c]]
        | p :: ps => (c :: p) :: ps

/-- Model of Array.prototype.join with the pipe character. -/
def joinPipe : List (List Char) → List Char
  | [] => []
  | [p] => p
  | p :: ps => p ++ '|' :: joinPipe ps

theorem splitOnPipe_ne_nil : ∀ l : List Char, splitOnPipe l ≠ []
  | [] => by simp [splitOnPipe]
  | c :: cs => by
      simp only [splitOnPipe]
      split
      · simp
      · split
        · simp
        · simp

theorem joinPipe_cons_cons (p q : List Char) (ps : List (List Char)) :
    joinPipe (p :: q :: ps) = p ++ '|' :: joinPipe (q :: ps) := rfl

theorem joinPipe_splitOnPipe : ∀ l : List Char, joinPipe (splitOnPipe l) = l
  | [] => rfl
  | c :: cs => by
      have ih := joinPipe_splitOnPipe cs
      simp only [splitOnPipe]
      by_cases hc : c = '|'
      · rw [if_pos hc]
        obtain ⟨q, qs, hq⟩ := List.exists_cons_of_ne_nil (splitOnPipe_ne_nil cs)
        rw [hq] at ih ⊢
        rw [joinPipe_cons_cons, List.nil_append, ← ih, hc]
      · rw [if_neg hc]
        obtain ⟨q, qs, hq⟩ := List.exists_cons_of_ne_nil (splitOnPipe_ne_nil cs)
        rw [hq] at ih ⊢
        cases qs with
        | nil => simpa [joinPipe] using congrArg (c :: ·) ih
        | cons r rs =>
            rw [joinPipe_cons_cons] at ih
            show joinPipe ((c :: q) :: r :: rs) = c :: cs
            rw [joinPipe_cons_cons, ← ih]
            simp

theorem splitOnPipe_append_pipe : ∀ (a b : List Char),
    splitOnPipe (a ++ '|' :: b) = splitOnPipe a ++ splitOnPipe b
  | [], b => by simp [splitOnPipe]
  | c :: a', b => by
      have ih := splitOnPipe_append_pipe a' b
      by_cases hc : c = '|'
      · simp only [List.cons_append, splitOnPipe, if_pos hc, List.append_eq, ih]
      · simp only [List.cons_append, splitOnPipe, if_neg hc, List.append_eq, ih]
        obtain ⟨q, qs, hq⟩ := List.exists_cons_of_ne_nil (splitOnPipe_ne_nil a')
        rw [hq]
        rfl

theorem splitOnPipe_no_pipe : ∀ l : List Char, '|' ∉ l → splitOnPipe l = [l]
  | [], _ => rfl
  | c :: cs, h => by
      have hc : ¬c = '|' := fun hcc => h (by simp [hcc])
      have ih := splitOnPipe_no_pipe cs (fun hcs => h (by simp [hcs]))
      simp only [splitOnPipe, if_neg hc, ih]

/-- Test of a split field beginning with the marker S: used by
    simple-secure-manager (part.startsWith with the two characters S and
    colon). -/
def startsWithSC : List Char → Bool
  | 'S' :: ':' :: _ => true
  | _ => false

/-- Substring test for the two characters S colon anywhere in the payload,
    modelling String.prototype.includes. -/
def containsSC : List Char → Bool
  | [] => false
  | c :: cs => startsWithSC (c :: cs) || containsSC cs

/-- Numeric value of a leading run of decimal digits, modelling the integer
    parse of the regex capture. -/
def parseDigits (l : List Char) : Nat :=
  (l.takeWhile Char.isDigit).foldl (fun a c => a * 10 + (c.toNat - 48)) 0

/-- Match of the regex T colon digits at the head of the string. -/
def timeAtHeadT : List Char → Option Nat
  | 'T' :: ':' :: c :: rest => if c.isDigit then some (parseDigits (c :: rest)) else none
  | _ => none

/-- Leftmost match of the regex T colon digits, modelling
    payload.match of T:(one or more digits). -/
def findTimeT : List Char → Option Nat
  | [] => none
  | c :: rest =>
      match timeAtHeadT (c :: rest) with
      | some t => some t
      | none => findTimeT rest

/-- Verification outcome of verifySignature. -/
structure SigCheck where
  isValid : Bool
  isExpired : Bool
deriving DecidableEq, Repr

def take16 (l : List Char) : List Char := l.take 16

/-- Model of SimpleSecureNFCManager.verifySignature
    (simple-secure-manager.ts lines 167-206): split on pipes, locate the
    first field starting with S colon, recompute the truncated digest over
    the fields before it, and check the hardcoded five-minute expiry against
    the first T colon digits match. -/
def verifySignature (h : List Char → List Char) (key : List Char) (now : Int)
    (payload : List Char) : SigCheck :=
  match findIdxO startsWithSC (splitOnPipe payload) with
  | none => ⟨false, false⟩
  | some i =>
      let parts := splitOnPipe payload
      let shortSignature := (parts.getD i []).drop 2
      let payloadWithoutSig := joinPipe (parts.take i)
      let isValid := decide (shortSignature = take16 (h (payloadWithoutSig ++ key)))
      let isExpired :=
        match findTimeT payloadWithoutSig with
        | none => false
        | some t => decide (now - (t : Int) > 300000)
      ⟨isValid, isExpired⟩

/-- Data truncation of writeSecureTag: strings above 50 characters are cut
    and suffixed with three dots. -/
def truncData (data : List Char) : List Char :=
  if data.length > 50 then data.take 50 ++ ['.', '.', '.'] else data

/-- Compact pre-signature payload composed by writeSecureTag:
    data, T colon timestamp, N colon nonce, pipe-separated. -/
def presigPayload (data ts nonce : List Char) : List Char :=
  truncData data ++ '|' :: 'T' :: ':' :: ts ++ '|' :: 'N' :: ':' :: nonce

/-- Model of the signing step of writeSecureTag (simple-secure-manager.ts
    lines 24-49): append S colon and the first 16 characters of the digest
    of the pre-signature payload concatenated with the private key. -/
def signSecure (h : List Char → List Char) (key data ts nonce : List Char) : List Char :=
  presigPayload data ts nonce
    ++ '|' :: 'S' :: ':' :: take16 (h (presigPayload data ts nonce ++ key))

/-- The hardcoded demo private key of SimpleSecureNFCManager. -/
def demoKey : List Char := "demo_secure_key_12345".data

/-! ## Claim theorems for tamper sensitivity (C2) -/

theorem verify_isValid_eq (h : List Char → List Char) (key P' g : List Char) (now : Int)
    (hparts : ∀ p ∈ splitOnPipe P', startsWithSC p = false)
    (hpipe : '|' ∉ g) :
    (verifySignature h key now (P' ++ '|' :: 'S' :: ':' :: g)).isValid
      = decide (g = take16 (h (P' ++ key))) := by
  have hsingle : splitOnPipe ('S' :: ':' :: g) = ['S' :: ':' :: g] := by
    apply splitOnPipe_no_pipe
    intro hm
    rcases List.mem_cons.mp hm with h1 | hm2
    · exact absurd h1 (by decide)
    rcases List.mem_cons.mp hm2 with h2 | h3
    · exact absurd h2 (by decide)
    · exact hpipe h3
  have hsplit : splitOnPipe (P' ++ '|' :: 'S' :: ':' :: g)
      = splitOnPipe P' ++ ['S' :: ':' :: g] := by
    rw [splitOnPipe_append_pipe, hsingle]
  have hfind : findIdxO startsWithSC (splitOnPipe P' ++ ['S' :: ':' :: g])
      = some (splitOnPipe P').length :=
    findIdxO_append_singleton _ _ _ hparts rfl
  simp only [verifySignature, hsplit, hfind]
  rw [getD_append_singleton, take_append_singleton, joinPipe_splitOnPipe]
  rfl

/-- C2 amended: flipping one character of a signed payload at any position
    strictly inside the pre-signature region leaves the signature invalid,
    provided the flip does not make any pipe-delimited field of the modified
    pre-signature region begin with the marker S colon (the verifier picks
    the first such field), the stored truncated digest contains no pipe, and
    the truncated digest is injective on the two pre-signature strings
    involved. -/
theorem tamper_before_marker_invalidates
    (h : List Char → List Char) (key data ts nonce : List Char) (now : Int)
    (i : Nat) (c : Char)
    (hi : i < (presigPayload data ts nonce).length)
    (hc : c ≠ (presigPayload data ts nonce).getD i ' ')
    (hparts : ∀ p ∈ splitOnPipe ((presigPayload data ts nonce).set i c),
        startsWithSC p = false)
    (hpipe : '|' ∉ take16 (h (presigPayload data ts nonce ++ key)))
    (hinj : take16 (h ((presigPayload data ts nonce).set i c ++ key))
          = take16 (h (presigPayload data ts nonce ++ key))
        → (presigPayload data ts nonce).set i c = presigPayload data ts nonce) :
    (verifySignature h key now ((signSecure h key data ts nonce).set i c)).isValid
      = false := by
  have hsets : (signSecure h key data ts nonce).set i c
      = (presigPayload data ts nonce).set i c
        ++ '|' :: 'S' :: ':' :: take16 (h (presigPayload data ts nonce ++ key)) := by
    rw [signSecure]
    exact List.set_append_left i c hi
  rw [hsets, verify_isValid_eq h key _ _ now hparts hpipe]
  apply decide_eq_false
  intro hgeq
  exact set_ne_of_ne (presigPayload data ts nonce) i c ' ' hi hc (hinj hgeq.symm)

/-- Abstract stand-in digest used in concrete witnesses: drop every pipe
    character. -/
def pfHash : List Char → List Char := fun s => s.filter (fun c => decide (c ≠ '|'))

/-- C2 amended witness: flipping the first character of a concrete signed
    payload makes verification fail. -/
theorem tamper_before_marker_invalidates_witness :
    (verifySignature pfHash demoKey 0
        ((signSecure pfHash demoKey "hello".data "1".data "n".data).set 0 'x')).isValid
      = false :=
  tamper_before_marker_invalidates pfHash demoKey "hello".data "1".data "n".data 0 0 'x'
    (by decide) (by decide) (by decide) (by decide) (by decide)

/-- Identity function used as an injective stand-in digest in the C2
    counterexample. -/
def idHash : List Char → List Char := fun s => s

/-- Payload data crafted so that one flipped byte turns the data field into
    a field starting with S colon whose remainder equals the truncated
    digest of the bare key. -/
def cexData2 : List Char := 'A' :: ':' :: take16 (idHash demoKey)

def cexSigned2 : List Char := signSecure idHash demoKey cexData2 "1".data "n".data

set_option maxRecDepth 4000 in
/-- C2 counterexample: the claim fails as stated. The truncated digest is
    injective on the two pre-signature inputs the verifier considers here
    (their truncated digests differ, stated as the implication below), the
    signed payload carries its signature marker in its last field (index 3),
    and flipping the single byte at position 0, strictly before the marker,
    yields a payload that verifySignature reports as valid. -/
theorem tamper_flip_accepted :
    (take16 (idHash (([] : List Char) ++ demoKey))
        = take16 (idHash (presigPayload cexData2 "1".data "n".data ++ demoKey))
      → ([] : List Char) = presigPayload cexData2 "1".data "n".data)
    ∧ findIdxO startsWithSC (splitOnPipe cexSigned2) = some 3
    ∧ cexSigned2.set 0 'S' ≠ cexSigned2
    ∧ (verifySignature idHash demoKey 0 (cexSigned2.set 0 'S')).isValid = true :=
  ⟨by decide, by decide, by decide, by decide⟩

/-! ## Tag access orchestrator (simple-secure-manager.ts readSecureTag)

Security events carry a type, a severity and a blocked flag; the textual
description, tag id and creation timestamp fields of the source carry no
control flow and are omitted. The threat report produced by the separate
SecurityManager.performThreatDetection collaborator is an input parameter. -/

inductive Severity
  | LOW | MEDIUM | HIGH
deriving DecidableEq, Repr

inductive EventType
  | SIGNATURE_INVALID | EXPIRED_SIGNATURE | RAPID_ACCESS | LOCATION_ANOMALY
  | DEVICE_ANOMALY | CLONING_ATTEMPT | UNAUTHORIZED_READ | SUSPICIOUS_PATTERN
  | MALFORMED_DATA
deriving DecidableEq, Repr

structure SecEvent where
  type : EventType
  severity : Severity
  blocked : Bool
deriving DecidableEq, Repr

structure ThreatReport where
  threatType : EventType
  severity : Severity
  blocked : Bool
deriving DecidableEq, Repr

/-- Accumulator of the per-record loop of readSecureTag. -/
structure ReadAcc where
  isValid : Bool
  isExpired : Bool
  shouldBlock : Bool
  events : List SecEvent
deriving DecidableEq, Repr

/-- One iteration of the record loop of readSecureTag (simple-secure-manager
    lines 92-124): records whose payload contains S colon are verified, the
    verification outcome overwrites isValid and isExpired, and invalid or
    expired outcomes append blocking events and set shouldBlock. -/
def readStep (h : List Char → List Char) (key : List Char) (now : Int)
    (acc : ReadAcc) (payload : List Char) : ReadAcc :=
  if containsSC payload then
    let v := verifySignature h key now payload
    { isValid := v.isValid
      isExpired := v.isExpired
      shouldBlock := acc.shouldBlock || !v.isValid || v.isExpired
      events := acc.events
        ++ (if v.isValid then [] else [⟨.SIGNATURE_INVALID, .HIGH, true⟩])
        ++ (if v.isExpired then [⟨.EXPIRED_SIGNATURE, .MEDIUM, true⟩] else []) }
  else acc

/-- Result record of readSecureTag. -/
structure ReadResult where
  isValid : Bool
  isExpired : Bool
  shouldBlock : Bool
  events : List SecEvent
  accessGranted : Bool
deriving DecidableEq, Repr

/-- Model of SimpleSecureNFCManager.readSecureTag (simple-secure-manager.ts
    lines 64-162): run the record loop, append the threat-report event when
    present, and grant access only when isValid holds, isExpired does not,
    and shouldBlock does not. -/
def readSecureTag (h : List Char → List Char) (key : List Char) (now : Int)
    (records : List (List Char)) (threat : Option ThreatReport) : ReadResult :=
  let acc := records.foldl (readStep h key now) ⟨false, false, false, []⟩
  let events := acc.events
    ++ (match threat with
        | some t => [⟨t.threatType, t.severity, t.blocked⟩]
        | none => [])
  let shouldBlock := acc.shouldBlock
    || (match threat with | some t => t.blocked | none => false)
  ⟨acc.isValid, acc.isExpired, shouldBlock, events,
   acc.isValid && !acc.isExpired && !shouldBlock⟩

theorem readStep_unsigned (h : List Char → List Char) (key : List Char) (now : Int)
    (acc : ReadAcc) (payload : List Char) (hp : containsSC payload = false) :
    readStep h key now acc payload = acc := by
  rw [readStep, if_neg (by simp [hp])]

theorem foldl_readStep_id (h : List Char → List Char) (key : List Char) (now : Int) :
    ∀ (records : List (List Char)) (acc : ReadAcc),
      (∀ p ∈ records, containsSC p = false) →
      records.foldl (readStep h key now) acc = acc
  | [], _, _ => rfl
  | p :: ps, acc, hall => by
      rw [List.foldl_cons, readStep_unsigned h key now acc p (hall p (by simp))]
      exact foldl_readStep_id h key now ps acc (fun q hq => hall q (by simp [hq]))

theorem readStep_block_invariant (h : List Char → List Char) (key : List Char)
    (now : Int) (acc : ReadAcc) (payload : List Char)
    (hacc : acc.shouldBlock = acc.events.any (fun e => e.blocked)) :
    (readStep h key now acc payload).shouldBlock
      = (readStep h key now acc payload).events.any (fun e => e.blocked) := by
  rw [readStep]
  by_cases hp : containsSC payload = true
  · rw [if_pos hp]
    cases hv : (verifySignature h key now payload).isValid <;>
      cases he : (verifySignature h key now payload).isExpired <;>
        simp [hacc, hv, he, List.any_append]
  · rw [if_neg hp]
    exact hacc

theorem foldl_readStep_block (h : List Char → List Char) (key : List Char) (now : Int) :
    ∀ (records : List (List Char)) (acc : ReadAcc),
      acc.shouldBlock = acc.events.any (fun e => e.blocked) →
      (records.foldl (readStep h key now) acc).shouldBlock
        = (records.foldl (readStep h key now) acc).events.any (fun e => e.blocked)
  | [], _, hacc => hacc
  | p :: ps, acc, hacc => by
      rw [List.foldl_cons]
      exact foldl_readStep_block h key now ps _
        (readStep_block_invariant h key now acc p hacc)

/-! ## Claim theorems for the access decision (C3) and for multiple
signed records (C10) -/

/-- C3 amended: the access decision always equals the conjunction of
    signature validity, non-expiry, and the absence of any blocking event
    among the returned events; and for a tag carrying no signed record the
    decision does not reduce to the absence of blocking events but is
    constantly false, because isValid keeps its initial false value. -/
theorem access_decision_formula (h : List Char → List Char) (key : List Char)
    (now : Int) (records : List (List Char)) (threat : Option ThreatReport) :
    ((readSecureTag h key now records threat).accessGranted
      = ((readSecureTag h key now records threat).isValid
          && !(readSecureTag h key now records threat).isExpired
          && !((readSecureTag h key now records threat).events.any (fun e => e.blocked))))
    ∧ ((∀ p ∈ records, containsSC p = false) →
        (readSecureTag h key now records threat).accessGranted = false) := by
  constructor
  · have hblock := foldl_readStep_block h key now records ⟨false, false, false, []⟩ rfl
    simp only [readSecureTag, List.any_append, hblock]
    cases threat <;> simp
  · intro hall
    simp only [readSecureTag, foldl_readStep_id h key now records _ hall]
    rfl

/-- C3 amended witness: a one-record unsigned tag with no threat report is
    denied access. -/
theorem access_decision_formula_witness :
    (readSecureTag idHash demoKey 0 ["hello".data] none).accessGranted = false :=
  (access_decision_formula idHash demoKey 0 ["hello".data] none).2 (by decide)

/-- C3 counterexample: the claim fails as stated for unsigned tags. A tag
    whose single record has no signature marker and no threat report yields
    no blocking event, so the claimed reduction to the absence of blocking
    events would grant access, yet accessGranted is false. -/
theorem unsigned_tag_denied :
    ((readSecureTag idHash demoKey 0 ["hello".data] none).events.any
        (fun e => e.blocked)) = false
    ∧ (readSecureTag idHash demoKey 0 ["hello".data] none).accessGranted = false :=
  ⟨by decide, by decide⟩

/-- C10: when a tag carries several signed records, the isValid and
    isExpired values reported by readSecureTag are exactly those of the last
    signed record in wire order; each signed record verification overwrites
    the previous outcome. -/
theorem last_signed_record_decides (h : List Char → List Char) (key : List Char)
    (now : Int) (pre post : List (List Char)) (r : List Char)
    (threat : Option ThreatReport)
    (hr : containsSC r = true)
    (hpost : ∀ x ∈ post, containsSC x = false) :
    (readSecureTag h key now (pre ++ r :: post) threat).isValid
      = (verifySignature h key now r).isValid
    ∧ (readSecureTag h key now (pre ++ r :: post) threat).isExpired
      = (verifySignature h key now r).isExpired := by
  have hfold : (pre ++ r :: post).foldl (readStep h key now) ⟨false, false, false, []⟩
      = readStep h key now (pre.foldl (readStep h key now) ⟨false, false, false, []⟩) r := by
    rw [List.foldl_append, List.foldl_cons]
    exact foldl_readStep_id h key now post _ hpost
  constructor <;>
    · simp only [readSecureTag, hfold, readStep, if_pos hr]

def goodSigned : List Char := signSecure pfHash demoKey "D".data "1".data "n".data

/-- C10 witness: with an invalid signed record followed by a freshly signed
    record, the reported isValid and isExpired are those of the second
    record. -/
theorem last_signed_record_decides_witness :
    (readSecureTag pfHash demoKey 5 (["X|S:0000".data] ++ goodSigned :: []) none).isValid
      = (verifySignature pfHash demoKey 5 goodSigned).isValid
    ∧ (readSecureTag pfHash demoKey 5 (["X|S:0000".data] ++ goodSigned :: []) none).isExpired
      = (verifySignature pfHash demoKey 5 goodSigned).isExpired :=
  last_signed_record_decides pfHash demoKey 5 ["X|S:0000".data] [] goodSigned none
    (by decide) (by decide)

/-! ## Behavioral analysis and signed-tag verification (firebase.ts
NFCSecurityManager)

The config carries the fields with control flow; private and public key
strings are passed separately where used. Date.now() is the parameter now;
new Date(t).getHours() is the parameter hourOf (timezone dependent in the
source). The device fingerprint is the parameter deviceId. -/

structure SecurityConfig where
  signatureExpiration : Int
  maxAccessesPerMinute : Nat
  maxLocationsPerHour : Nat
deriving DecidableEq, Repr

structure AccessPattern where
  times : List Int
  locations : List (List Char)
  devices : List (List Char)
  intervals : List Int
deriving DecidableEq, Repr

def emptyPattern : AccessPattern := ⟨[], [], [], []⟩

/-- Model of NFCSecurityManager.recordAccess (firebase.ts lines 204-239):
    push the time and device, push the location when present, push the
    interval from the previous access when one exists, then cut every
    sequence to its last 20 entries once times exceeds 20. -/
def recordAccess (pat : AccessPattern) (now : Int) (deviceId : List Char)
    (location : Option (List Char)) : AccessPattern :=
  let times := pat.times ++ [now]
  let devices := pat.devices ++ [deviceId]
  let locations :=
    match location with
    | some l => pat.locations ++ [l]
    | none => pat.locations
  let intervals :=
    if times.length > 1 then
      pat.intervals ++ [now - times.getD (times.length - 2) 0]
    else pat.intervals
  if times.length > 20 then
    ⟨lastN 20 times, lastN 20 locations, lastN 20 devices, lastN 20 intervals⟩
  else ⟨times, locations, devices, intervals⟩

/-- One recorded access with its wall-clock time, device fingerprint and
    optional location, used to describe sequences of recordAccess calls. -/
structure AccessStep where
  time : Int
  device : List Char
  loc : Option (List Char)
deriving DecidableEq, Repr

def runAccesses (steps : List AccessStep) : AccessPattern :=
  steps.foldl (fun p s => recordAccess p s.time s.device s.loc) emptyPattern

/-- Model of NFCSecurityManager.analyzeBehavior (firebase.ts lines 244-335):
    five independent rules evaluated over the current pattern, every firing
    rule contributing its event. -/
def analyzeBehavior (cfg : SecurityConfig) (patOpt : Option AccessPattern)
    (now : Int) (hourOf : Int → Int) : List SecEvent :=
  match patOpt with
  | none => []
  | some pattern =>
      let recentAccesses := pattern.times.filter (fun t => decide (now - t < 60 * 1000))
      let e1 : List SecEvent :=
        if recentAccesses.length > cfg.maxAccessesPerMinute then
          [⟨.RAPID_ACCESS, .HIGH, true⟩] else []
      let recentLocations := (lastN 10 pattern.locations).filter (fun l => decide (l ≠ []))
      let e2 : List SecEvent :=
        if recentLocations.dedup.length > cfg.maxLocationsPerHour then
          [⟨.LOCATION_ANOMALY, .MEDIUM, false⟩] else []
      let recentDevices := lastN 5 pattern.devices
      let e3 : List SecEvent :=
        if recentDevices.dedup.length > 2 then
          [⟨.DEVICE_ANOMALY, .HIGH, true⟩] else []
      let veryShortIntervals := pattern.intervals.filter (fun iv => decide (iv < 5000))
      let e4 : List SecEvent :=
        if veryShortIntervals.length > 2 then
          [⟨.RAPID_ACCESS, .HIGH, true⟩] else []
      let currentHour := hourOf now
      let e5 : List SecEvent :=
        if currentHour < 6 ∨ currentHour > 22 then
          if ((pattern.times.map hourOf).filter
              (fun hr => decide ((hr - currentHour).natAbs < 2))).length > 0 then []
          else [⟨.LOCATION_ANOMALY, .LOW, false⟩]
        else []
      e1 ++ e2 ++ e3 ++ e4 ++ e5

/-- Test of a split field beginning with the marker SIG colon. -/
def startsWithSIG : List Char → Bool
  | 'S' :: 'I' :: 'G' :: ':' :: _ => true
  | _ => false

/-- Match of the regex TIME colon digits at the head of the string. -/
def timeAtHeadTIME : List Char → Option Nat
  | 'T' :: 'I' :: 'M' :: 'E' :: ':' :: c :: rest =>
      if c.isDigit then some (parseDigits (c :: rest)) else none
  | _ => none

/-- Leftmost match of the regex TIME colon digits. -/
def findTimeTIME : List Char → Option Nat
  | [] => none
  | c :: rest =>
      match timeAtHeadTIME (c :: rest) with
      | some t => some t
      | none => findTimeTIME rest

structure VerifiedTag where
  isValid : Bool
  isExpired : Bool
  securityEvents : List SecEvent
  shouldBlock : Bool
deriving DecidableEq, Repr

/-- Branch of verifySignedTag taken once the SIG field was located at index
    i: recompute the full digest over the preceding fields, evaluate expiry
    from the first TIME match against the configured window, record the
    access and run the behavioral analysis over the updated pattern. -/
def verifySignedTagAux (h : List Char → List Char) (cfg : SecurityConfig)
    (key : List Char) (patOpt : Option AccessPattern) (tagPayload : List Char)
    (now : Int) (deviceId : List Char) (location : Option (List Char))
    (hourOf : Int → Int) (i : Nat) : VerifiedTag × Option AccessPattern :=
  let parts := splitOnPipe tagPayload
  let signature := (parts.getD i []).drop 4
  let payloadWithoutSig := joinPipe (parts.take i)
  let isValid := decide (signature = h (payloadWithoutSig ++ key))
  let sigEvents : List SecEvent :=
    if isValid then [] else [⟨.SIGNATURE_INVALID, .HIGH, true⟩]
  let expiry : Bool × List SecEvent :=
    match findTimeTIME payloadWithoutSig with
    | none => (false, [])
    | some t =>
        if now - (t : Int) > cfg.signatureExpiration then
          (true, [⟨.EXPIRED_SIGNATURE, .MEDIUM, true⟩])
        else (false, [])
  let newPat := recordAccess (patOpt.getD emptyPattern) now deviceId location
  let behavioral := analyzeBehavior cfg (some newPat) now hourOf
  let events := sigEvents ++ expiry.2 ++ behavioral
  let shouldBlock := !isValid || expiry.1
    || decide (0 < (behavioral.filter (fun e => decide (e.severity = .HIGH))).length)
  (⟨isValid, expiry.1, events, shouldBlock⟩, some newPat)

/-- Model of NFCSecurityManager.verifySignedTag (firebase.ts lines 88-185):
    when no pipe field starts with SIG colon, return invalid with one HIGH
    SIGNATURE_INVALID event and leave the pattern untouched (the source
    returns before recordAccess); otherwise proceed with verification,
    expiry, access recording and behavioral analysis. -/
def verifySignedTag (h : List Char → List Char) (cfg : SecurityConfig)
    (key : List Char) (patOpt : Option AccessPattern) (tagPayload : List Char)
    (now : Int) (deviceId : List Char) (location : Option (List Char))
    (hourOf : Int → Int) : VerifiedTag × Option AccessPattern :=
  match findIdxO startsWithSIG (splitOnPipe tagPayload) with
  | none => (⟨false, false, [⟨.SIGNATURE_INVALID, .HIGH, true⟩], true⟩, patOpt)
  | some i =>
      verifySignedTagAux h cfg key patOpt tagPayload now deviceId location hourOf i

/-- Default security configuration of the demo managers: five-minute expiry,
    three accesses per minute, two locations per hour. -/
def cfg300 : SecurityConfig := ⟨300000, 3, 2⟩

/-! ## Claim theorems for parse failures (C4), rate limiting (C6) and
expiry (C7) -/

theorem mem_ite_singleton {c : Prop} [Decidable c] {ev e : SecEvent}
    (he : e ∈ (if c then [ev] else [])) : e = ev := by
  split at he
  · simpa using he
  · simp at he

theorem mem_ite_singleton' {c : Prop} [Decidable c] {ev e : SecEvent}
    (he : e ∈ (if c then [] else [ev])) : e = ev := by
  split at he
  · simp at he
  · simpa using he

/-- Behavioral analysis only emits rapid-access, location and device events,
    never signature events. -/
theorem analyzeBehavior_no_sig_event (cfg : SecurityConfig)
    (patOpt : Option AccessPattern) (now : Int) (hourOf : Int → Int) :
    ∀ e ∈ analyzeBehavior cfg patOpt now hourOf, e.type ≠ .SIGNATURE_INVALID := by
  intro e he
  rcases patOpt with _ | pattern
  · simp [analyzeBehavior] at he
  · simp only [analyzeBehavior] at he
    rcases List.mem_append.mp he with h4 | h5
    · rcases List.mem_append.mp h4 with h3 | h4'
      · rcases List.mem_append.mp h3 with h2 | h3'
        · rcases List.mem_append.mp h2 with h1 | h2'
          · rw [mem_ite_singleton h1]; decide
          · rw [mem_ite_singleton h2']; decide
        · rw [mem_ite_singleton h3']; decide
      · rw [mem_ite_singleton h4']; decide
    · split at h5
      · rw [mem_ite_singleton' h5]; decide
      · simp at h5

/-- C4 amended: a payload with no SIG field yields isValid false plus one
    HIGH SIGNATURE_INVALID event with the pattern untouched; a payload whose
    pre-signature part has no TIME match yields isExpired false with no
    event recording the missing field, and when the signature itself checks
    out no SIGNATURE_INVALID event is returned either. -/
theorem verify_missing_fields (h : List Char → List Char) (cfg : SecurityConfig)
    (key : List Char) (patOpt : Option AccessPattern) (payload : List Char)
    (now : Int) (dev : List Char) (loc : Option (List Char)) (hourOf : Int → Int) :
    (findIdxO startsWithSIG (splitOnPipe payload) = none →
      verifySignedTag h cfg key patOpt payload now dev loc hourOf
        = (⟨false, false, [⟨.SIGNATURE_INVALID, .HIGH, true⟩], true⟩, patOpt))
    ∧ (∀ i, findIdxO startsWithSIG (splitOnPipe payload) = some i →
        findTimeTIME (joinPipe ((splitOnPipe payload).take i)) = none →
        (verifySignedTag h cfg key patOpt payload now dev loc hourOf).1.isExpired = false
        ∧ ((verifySignedTag h cfg key patOpt payload now dev loc hourOf).1.isValid = true →
            ∀ e ∈ (verifySignedTag h cfg key patOpt payload now dev loc hourOf).1.securityEvents,
              e.type ≠ .SIGNATURE_INVALID)) := by
  constructor
  · intro hnone
    simp only [verifySignedTag, hnone]
  · intro i hsig htime
    simp only [verifySignedTag, hsig, verifySignedTagAux, htime]
    refine ⟨by trivial, ?_⟩
    intro hv e he
    simp only [hv] at he
    simp at he
    exact analyzeBehavior_no_sig_event cfg _ now hourOf e he

/-- C4 amended witness: a payload with no SIG field is rejected with the
    single HIGH SIGNATURE_INVALID event, and a payload with a valid SIG but
    no TIME field reports isExpired false. -/
theorem verify_missing_fields_witness :
    (verifySignedTag pfHash cfg300 "k".data none "hello".data 0 "d".data none (fun _ => 10)
        = (⟨false, false, [⟨.SIGNATURE_INVALID, .HIGH, true⟩], true⟩, none))
    ∧ (verifySignedTag pfHash cfg300 "k".data none "A|SIG:Ak".data 1000 "d".data none
        (fun _ => 10)).1.isExpired = false :=
  ⟨(verify_missing_fields pfHash cfg300 "k".data none "hello".data 0 "d".data none
      (fun _ => 10)).1 (by decide),
   ((verify_missing_fields pfHash cfg300 "k".data none "A|SIG:Ak".data 1000 "d".data none
      (fun _ => 10)).2 1 (by decide) (by decide)).1⟩

/-- C4 counterexample: the claim fails as stated for a missing TIME field.
    The payload A pipe SIG colon Ak has no TIME field anywhere, its signature
    verifies against the stand-in digest, and verifySignedTag returns
    isValid true with an empty event list: neither isValid false nor any
    SIGNATURE_INVALID event. -/
theorem missing_time_no_event :
    findTimeTIME "A|SIG:Ak".data = none
    ∧ (verifySignedTag pfHash cfg300 "k".data none "A|SIG:Ak".data 1000 "d".data none
        (fun _ => 10)).1 = ⟨true, false, [], false⟩ :=
  ⟨by decide, by decide⟩

/-- C7: for a payload carrying a SIG field and an embedded signing time T,
    verification with expiry window W reports isExpired false at clock
    T + W - 1 and isExpired true at clock T + W + 1, and the isValid verdict
    is the same at any two clocks. -/
theorem expiry_boundary (h : List Char → List Char) (cfg : SecurityConfig)
    (key : List Char) (patOpt : Option AccessPattern) (payload : List Char)
    (dev : List Char) (loc : Option (List Char)) (hourOf : Int → Int)
    (i : Nat) (T : Nat)
    (hsig : findIdxO startsWithSIG (splitOnPipe payload) = some i)
    (htime : findTimeTIME (joinPipe ((splitOnPipe payload).take i)) = some T) :
    (verifySignedTag h cfg key patOpt payload ((T : Int) + cfg.signatureExpiration - 1)
        dev loc hourOf).1.isExpired = false
    ∧ (verifySignedTag h cfg key patOpt payload ((T : Int) + cfg.signatureExpiration + 1)
        dev loc hourOf).1.isExpired = true
    ∧ ∀ now₁ now₂ : Int,
        (verifySignedTag h cfg key patOpt payload now₁ dev loc hourOf).1.isValid
          = (verifySignedTag h cfg key patOpt payload now₂ dev loc hourOf).1.isValid := by
  refine ⟨?_, ?_, ?_⟩
  · simp only [verifySignedTag, hsig, verifySignedTagAux, htime]
    rw [if_neg (by omega)]
  · simp only [verifySignedTag, hsig, verifySignedTagAux, htime]
    rw [if_pos (by omega)]
  · intro now₁ now₂
    simp only [verifySignedTag, hsig, verifySignedTagAux]

/-- C7 witness: a concrete payload signed at time 1000 with the five-minute
    default window is unexpired one millisecond before the boundary, expired
    one millisecond after it, and its validity verdict is clock-independent. -/
theorem expiry_boundary_witness :
    (verifySignedTag pfHash cfg300 "k".data none "D|TIME:1000|SIG:DTIME:1000k".data
        ((1000 : Int) + cfg300.signatureExpiration - 1) "d".data none
        (fun _ => 10)).1.isExpired = false
    ∧ (verifySignedTag pfHash cfg300 "k".data none "D|TIME:1000|SIG:DTIME:1000k".data
        ((1000 : Int) + cfg300.signatureExpiration + 1) "d".data none
        (fun _ => 10)).1.isExpired = true
    ∧ (verifySignedTag pfHash cfg300 "k".data none "D|TIME:1000|SIG:DTIME:1000k".data
        0 "d".data none (fun _ => 10)).1.isValid
      = (verifySignedTag pfHash cfg300 "k".data none "D|TIME:1000|SIG:DTIME:1000k".data
        999999 "d".data none (fun _ => 10)).1.isValid := by
  have H := expiry_boundary pfHash cfg300 "k".data none "D|TIME:1000|SIG:DTIME:1000k".data
    "d".data none (fun _ => 10) 2 1000 (by decide) (by decide)
  exact ⟨H.1, H.2.1, H.2.2 0 999999⟩

/-- C6: with the per-minute limit set to 3, four monotone accesses inside a
    sixty-second window make the analysis return the blocking HIGH
    RAPID_ACCESS event, while three accesses inside the window produce no
    RAPID_ACCESS event of either rapid-fire rule. -/
theorem rate_limit_rule (t1 t2 t3 t4 now : Int) (d : List Char)
    (cfg : SecurityConfig) (hourOf : Int → Int)
    (hmax : cfg.maxAccessesPerMinute = 3)
    (h12 : t1 ≤ t2) (h23 : t2 ≤ t3) (h34 : t3 ≤ t4) (h4n : t4 ≤ now)
    (hwin : now - t1 < 60000) :
    ((⟨.RAPID_ACCESS, .HIGH, true⟩ : SecEvent)
        ∈ analyzeBehavior cfg (some (runAccesses
            [⟨t1, d, none⟩, ⟨t2, d, none⟩, ⟨t3, d, none⟩, ⟨t4, d, none⟩])) now hourOf)
    ∧ ∀ e ∈ analyzeBehavior cfg (some (runAccesses
            [⟨t1, d, none⟩, ⟨t2, d, none⟩, ⟨t3, d, none⟩])) now hourOf,
        e.type ≠ .RAPID_ACCESS := by
  have hpat4 : runAccesses [⟨t1, d, none⟩, ⟨t2, d, none⟩, ⟨t3, d, none⟩, ⟨t4, d, none⟩]
      = ⟨[t1, t2, t3, t4], [], [d, d, d, d], [t2 - t1, t3 - t2, t4 - t3]⟩ := rfl
  have hpat3 : runAccesses [⟨t1, d, none⟩, ⟨t2, d, none⟩, ⟨t3, d, none⟩]
      = ⟨[t1, t2, t3], [], [d, d, d], [t2 - t1, t3 - t2]⟩ := rfl
  have b1 : decide (now - t1 < 60 * 1000) = true := decide_eq_true (by omega)
  have b2 : decide (now - t2 < 60 * 1000) = true := decide_eq_true (by omega)
  have b3 : decide (now - t3 < 60 * 1000) = true := decide_eq_true (by omega)
  have b4 : decide (now - t4 < 60 * 1000) = true := decide_eq_true (by omega)
  constructor
  · rw [hpat4]
    simp only [analyzeBehavior]
    apply List.mem_append_left
    apply List.mem_append_left
    apply List.mem_append_left
    apply List.mem_append_left
    have hfilter : ([t1, t2, t3, t4].filter (fun t => decide (now - t < 60 * 1000)))
        = [t1, t2, t3, t4] := by
      simp only [List.filter, b1, b2, b3, b4]
    rw [hfilter, hmax, if_pos (by norm_num)]
    exact List.mem_singleton_self _
  · intro e he
    rw [hpat3] at he
    simp only [analyzeBehavior] at he
    rcases List.mem_append.mp he with h4 | h5
    · rcases List.mem_append.mp h4 with h3 | h4'
      · rcases List.mem_append.mp h3 with h2 | h3'
        · rcases List.mem_append.mp h2 with h1 | h2'
          · exfalso
            have hle := List.length_filter_le
              (fun t => decide (now - t < 60 * 1000)) [t1, t2, t3]
            rw [hmax, if_neg (by simp only [List.length_cons, List.length_nil] at hle; omega)]
              at h1
            simp at h1
          · rw [mem_ite_singleton h2']; decide
        · rw [mem_ite_singleton h3']; decide
      · exfalso
        have hle := List.length_filter_le (fun iv => decide (iv < 5000))
          [t2 - t1, t3 - t2]
        rw [if_neg (by simp only [List.length_cons, List.length_nil] at hle; omega)] at h4'
        simp at h4'
    · split at h5
      · rw [mem_ite_singleton' h5]; decide
      · simp at h5

/-- C6 witness: four accesses at times 0 to 3 trigger the blocking
    RAPID_ACCESS event when analyzed at time 3. -/
theorem rate_limit_rule_witness :
    (⟨.RAPID_ACCESS, .HIGH, true⟩ : SecEvent)
      ∈ analyzeBehavior cfg300 (some (runAccesses
          [⟨0, "d".data, none⟩, ⟨1, "d".data, none⟩, ⟨2, "d".data, none⟩,
           ⟨3, "d".data, none⟩])) 3 (fun _ => 10) :=
  (rate_limit_rule 0 1 2 3 3 "d".data cfg300 (fun _ => 10) rfl (by decide) (by decide)
    (by decide) (by decide) (by decide)).1

/-! ## Claim theorems for the bounded access history (C5) -/

theorem runAccesses_append_singleton (steps : List AccessStep) (s : AccessStep) :
    runAccesses (steps ++ [s])
      = recordAccess (runAccesses steps) s.time s.device s.loc := by
  rw [runAccesses, List.foldl_append, List.foldl_cons, List.foldl_nil]
  rfl

theorem recordAccess_eq (pat : AccessPattern) (t : Int) (dev : List Char)
    (loc : Option (List Char)) (hne : pat.times ≠ []) :
    recordAccess pat t dev loc =
      if pat.times.length + 1 > 20 then
        ⟨lastN 20 (pat.times ++ [t]),
         lastN 20 (match loc with
                   | some l => pat.locations ++ [l]
                   | none => pat.locations),
         lastN 20 (pat.devices ++ [dev]),
         lastN 20 (pat.intervals ++ [t - lastD pat.times])⟩
      else
        ⟨pat.times ++ [t],
         (match loc with
          | some l => pat.locations ++ [l]
          | none => pat.locations),
         pat.devices ++ [dev],
         pat.intervals ++ [t - lastD pat.times]⟩ := by
  have hlen0 : 0 < pat.times.length := List.length_pos.mpr hne
  simp only [recordAccess]
  rw [if_pos (show (pat.times ++ [t]).length > 1 by
    simp only [List.length_append, List.length_singleton]; omega)]
  rw [lastD_append_singleton pat.times t hne]
  simp only [List.length_append, List.length_singleton]

theorem length_filterMap_loc : ∀ (steps : List AccessStep),
    (∀ s ∈ steps, s.loc ≠ none) →
    (steps.filterMap (fun s => s.loc)).length = steps.length
  | [], _ => rfl
  | s :: t, hall => by
      rcases hs : s.loc with _ | l
      · exact absurd hs (hall s (by simp))
      · simp only [List.filterMap_cons, hs, List.length_cons]
        rw [length_filterMap_loc t (fun q hq => hall q (by simp [hq]))]

theorem runAccesses_spec (steps : List AccessStep) :
    (runAccesses steps).times = lastN 20 (steps.map (fun s => s.time))
    ∧ (runAccesses steps).devices = lastN 20 (steps.map (fun s => s.device))
    ∧ (runAccesses steps).intervals = lastN 20 (diffs (steps.map (fun s => s.time)))
    ∧ (runAccesses steps).locations.length ≤ (runAccesses steps).times.length
    ∧ ((∀ s ∈ steps, s.loc ≠ none) →
        (runAccesses steps).locations
          = lastN 20 (steps.filterMap (fun s => s.loc))) := by
  induction steps using List.reverseRecOn with
  | nil => exact ⟨rfl, rfl, rfl, Nat.le_refl _, fun _ => rfl⟩
  | append_singleton steps s ih =>
      obtain ⟨iht, ihd, ihi, ihl, ihloc⟩ := ih
      rw [runAccesses_append_singleton]
      by_cases hst : steps = []
      · subst hst
        rcases s with ⟨t, dev, loc⟩
        rcases loc with _ | l
        · exact ⟨rfl, rfl, rfl, Nat.zero_le _, fun _ => rfl⟩
        · exact ⟨rfl, rfl, rfl, Nat.le_refl _, fun _ => rfl⟩
      · have hτne : steps.map (fun s => s.time) ≠ [] := by simpa using hst
        have hτpos : 0 < (steps.map (fun s => s.time)).length :=
          List.length_pos.mpr hτne
        have hsl : (steps.map (fun s => s.time)).length = steps.length :=
          List.length_map _ _
        have htne : (runAccesses steps).times ≠ [] := by
          intro hnil
          have hc := congrArg List.length hnil
          rw [iht, lastN_length, List.length_nil] at hc
          omega
        rw [recordAccess_eq _ _ _ _ htne, iht, ihd, ihi,
            lastD_lastN 20 _ hτne (by omega)]
        by_cases hge : 20 ≤ (steps.map (fun s => s.time)).length
        · have hl20 : (lastN 20 (steps.map (fun s => s.time))).length = 20 := by
            rw [lastN_length]; omega
          rw [if_pos (by rw [hl20]; omega)]
          refine ⟨?_, ?_, ?_, ?_, ?_⟩
          · simp only [List.map_append, List.map_cons, List.map_nil]
            exact lastN_lastN_append 20 _ _ (by omega)
          · simp only [List.map_append, List.map_cons, List.map_nil]
            exact lastN_lastN_append 20 _ _ (by omega)
          · simp only [List.map_append, List.map_cons, List.map_nil]
            rw [diffs_append_singleton _ _ hτne]
            exact lastN_lastN_append 20 _ _ (by omega)
          · have h21 : (lastN 20 (steps.map (fun s => s.time)) ++ [s.time]).length = 21 := by
              simp [hl20]
            dsimp only
            have hrB : (lastN 20 (lastN 20 (steps.map (fun s => s.time))
                ++ [s.time])).length = 20 := by
              rw [lastN_length, h21]
            rw [hrB]
            exact lastN_length_le 20 _
          · intro hall
            have hlocs := ihloc (fun q hq => hall q (by simp [hq]))
            rcases hs : s.loc with _ | l
            · exact absurd hs (hall s (by simp))
            · simp only [hs, hlocs, List.filterMap_append, List.filterMap_cons,
                List.filterMap_nil]
              exact lastN_lastN_append 20 _ _ (by omega)
        · have hlt : (steps.map (fun s => s.time)).length < 20 := by omega
          have heqτ : lastN 20 (steps.map (fun s => s.time))
              = steps.map (fun s => s.time) :=
            lastN_of_length_le 20 _ (by omega)
          have heqd : lastN 20 (steps.map (fun s => s.device))
              = steps.map (fun s => s.device) :=
            lastN_of_length_le 20 _ (by rw [List.length_map, ← hsl]; omega)
          have heqi : lastN 20 (diffs (steps.map (fun s => s.time)))
              = diffs (steps.map (fun s => s.time)) :=
            lastN_of_length_le 20 _ (by rw [diffs_length]; omega)
          rw [heqτ, heqd, heqi, if_neg (by omega)]
          refine ⟨?_, ?_, ?_, ?_, ?_⟩
          · simp only [List.map_append, List.map_cons, List.map_nil]
            exact (lastN_of_length_le 20 _ (by
              simp only [List.length_append, List.length_singleton]; omega)).symm
          · simp only [List.map_append, List.map_cons, List.map_nil]
            exact (lastN_of_length_le 20 _ (by
              simp only [List.length_append, List.length_singleton,
                List.length_map]; omega)).symm
          · simp only [List.map_append, List.map_cons, List.map_nil]
            rw [diffs_append_singleton _ _ hτne]
            exact (lastN_of_length_le 20 _ (by
              simp only [List.length_append, List.length_singleton, diffs_length]
              omega)).symm
          · have hloclen : (runAccesses steps).locations.length
                ≤ (steps.map (fun s => s.time)).length := by
              have := ihl
              rw [iht, heqτ] at this
              exact this
            rcases hs : s.loc with _ | l
            · simp only [List.length_append, List.length_singleton]
              omega
            · simp only [List.length_append, List.length_singleton]
              omega
          · intro hall
            have hlocs := ihloc (fun q hq => hall q (by simp [hq]))
            have hLlen : (steps.filterMap (fun s => s.loc)).length = steps.length :=
              length_filterMap_loc steps (fun q hq => hall q (by simp [hq]))
            have heqL : lastN 20 (steps.filterMap (fun s => s.loc))
                = steps.filterMap (fun s => s.loc) :=
              lastN_of_length_le 20 _ (by rw [hLlen, ← hsl]; omega)
            rcases hs : s.loc with _ | l
            · exact absurd hs (hall s (by simp))
            · simp only [hs, hlocs, heqL, List.filterMap_append, List.filterMap_cons,
                List.filterMap_nil]
              exact (lastN_of_length_le 20 _ (by
                simp only [List.length_append, List.length_singleton, hLlen]
                omega)).symm

/-- C5 amended: after any sequence of recordAccess calls from an empty
    pattern, times and devices hold the most recent 20 entries with the
    oldest evicted first, locations holds the most recent 20 provided
    locations, every sequence is capped at 20 entries, and intervals holds
    the last 20 consecutive time differences; because intervals is trimmed
    to 20 entries rather than 19, once more than 20 accesses are recorded
    the alignment shifts by one, so intervals aligns as
    intervals at i equals times at i minus times at i - 1 for i at least 1
    rather than the claimed pairing with the following entry. -/
theorem bounded_history (steps : List AccessStep) :
    (runAccesses steps).times = lastN 20 (steps.map (fun s => s.time))
    ∧ (runAccesses steps).devices = lastN 20 (steps.map (fun s => s.device))
    ∧ (runAccesses steps).intervals = lastN 20 (diffs (steps.map (fun s => s.time)))
    ∧ ((∀ s ∈ steps, s.loc ≠ none) →
        (runAccesses steps).locations = lastN 20 (steps.filterMap (fun s => s.loc)))
    ∧ (runAccesses steps).times.length ≤ 20
    ∧ (runAccesses steps).devices.length ≤ 20
    ∧ (runAccesses steps).intervals.length ≤ 20
    ∧ (runAccesses steps).locations.length ≤ 20 := by
  obtain ⟨ht, hd, hi, hl, hloc⟩ := runAccesses_spec steps
  refine ⟨ht, hd, hi, hloc, ?_, ?_, ?_, ?_⟩
  · rw [ht]; exact lastN_length_le 20 _
  · rw [hd]; exact lastN_length_le 20 _
  · rw [hi]; exact lastN_length_le 20 _
  · calc (runAccesses steps).locations.length
        ≤ (runAccesses steps).times.length := hl
      _ ≤ 20 := by rw [ht]; exact lastN_length_le 20 _

def w25 : List AccessStep :=
  (List.range 25).map (fun n => ⟨(n : Int), "d".data, some "L".data⟩)

/-- C5 amended witness: 25 accesses with a location leave the last 20 times
    and the last 20 locations. -/
theorem bounded_history_witness :
    (runAccesses w25).times = lastN 20 (w25.map (fun s => s.time))
    ∧ (runAccesses w25).locations = lastN 20 (w25.filterMap (fun s => s.loc))
    ∧ (runAccesses w25).times.length ≤ 20 :=
  ⟨(bounded_history w25).1, (bounded_history w25).2.2.2.1 (by decide),
   (bounded_history w25).2.2.2.2.1⟩

def cexSteps5 : List AccessStep :=
  ([0, 5, 6, 7, 8, 9, 10, 11, 12, 13, 14, 15, 16, 17, 18, 19, 20, 21, 22, 23,
    24] : List Int).map (fun n => ⟨n, "d".data, some "L".data⟩)

set_option maxRecDepth 8000 in
/-- C5 counterexample: the claim fails as stated. After 21 recordAccess
    calls at times 0, 5, 6, ..., 24, index 0 is valid in both sequences, yet
    the first interval is the stale value 5 while the difference of the
    first two retained times is 1: the invariant pairing intervals with the
    following time difference is broken after eviction. -/
theorem interval_alignment_broken :
    1 < (runAccesses cexSteps5).times.length
    ∧ (runAccesses cexSteps5).intervals.getD 0 0 = 5
    ∧ (runAccesses cexSteps5).times.getD 1 0 - (runAccesses cexSteps5).times.getD 0 0 = 1
    ∧ (runAccesses cexSteps5).intervals.getD 0 0
        ≠ (runAccesses cexSteps5).times.getD 1 0 - (runAccesses cexSteps5).times.getD 0 0 :=
  ⟨by decide, by decide, by decide, by decide⟩

end NFCSec
